import Mathlib

/-!
Shallow embedding of `ingest/system.go` from `stellar/horizon`: the
scheduling and consistency layer of the ledger ingestion service
(`Tick` / `runOnce` / `validateLedgerChain` / `ReingestAll` /
`ReingestOutdated` / `ReingestRange` / `ReingestSingle`), together with an
interleaving model of the lock protocol that guards the `current` session
slot.  Sequence numbers are Go `int32` values, modelled on `Int` (the only
arithmetic is `+1` / `-1` far from the `int32` boundary, so wrap-around is
not load-bearing for any property below).
-/

namespace Horizon

/-- A Go `error` value: only its identity matters to the scheduler. -/
structure Err where
  msg : String
  deriving DecidableEq

/-- A Go runtime panic value (what `recover()` returns). -/
structure Panic where
  msg : String
  deriving DecidableEq

/-- `ledger.State` as consumed here: the cached boundaries of both stores
(`ledger.CurrentState()` snapshots). -/
structure LedgerState where
  CoreElder : Int
  CoreLatest : Int
  HistoryLatest : Int
  deriving DecidableEq

/-- `core.LedgerHeader`, restricted to the fields the validator reads. -/
structure LedgerHeader where
  Sequence : Int
  LedgerHash : String
  PrevHash : String
  deriving DecidableEq

/-- Modelled from the spec: the Session worker's cursor over a closed
contiguous range (the scheduler reads `is.Cursor.FirstLedger` and
`is.Cursor.LastLedger`; the session type itself is not under `src/`). -/
structure Cursor where
  FirstLedger : Int
  LastLedger : Int
  deriving DecidableEq

/-- Modelled from the spec: the opaque Session worker record
`{FirstLedger, LastLedger, ClearExisting, Ingested, Err}` of the spec's
data model (the session code is not under `src/`; only its fields and its
`Run` contract are used by the scheduler). -/
structure Session where
  Cursor : Cursor
  ClearExisting : Bool
  Ingested : Int
  Err : Option Err
  deriving DecidableEq

/-- Modelled from the spec: `NewSession(first, last, i)` — a fresh Session
over `[first, last]` in "ingest only missing" mode (clear-existing =
false), with zeroed outcome fields. -/
def NewSession (first last : Int) : Session :=
  { Cursor := { FirstLedger := first, LastLedger := last }
    ClearExisting := false
    Ingested := 0
    Err := none }

/-- The argument one Session run receives: spec §6
`Run(range, clearExisting)`. -/
structure SessionCall where
  first : Int
  last : Int
  clearExisting : Bool
  deriving DecidableEq

def sessionCallOf (s : Session) : SessionCall :=
  ⟨s.Cursor.FirstLedger, s.Cursor.LastLedger, s.ClearExisting⟩

/-- The external collaborators of `System`.  `run` is the Session worker
(`Except.error` = the run panicked).  Each `ledger.CurrentState()` call
site gets its own snapshot (`lsAll` for `ReingestAll`, `lsTick` for
`newTickSession`, `lsRun` for `runOnce`); the one inside `runOnce` may
fault (`Except.error` = a panic raised by the read), which `runOnce` must
contain.  `header` is `core.Q.LedgerHeaderBySequence`. -/
structure Env where
  run : SessionCall → Except Panic (Int × Option Err)
  lsAll : LedgerState
  lsTick : LedgerState
  lsRun : Except Panic LedgerState
  header : Int → Except Err LedgerHeader

/-- Modelled from the spec: `is.Run()` — executes the session, filling
`Ingested` and `Err` (spec §6: `Run(range, clearExisting) ->
(ingestedCount, error)`); a panic propagates to the caller. -/
def runSessionUpd (env : Env) (s : Session) : Except Panic Session :=
  match env.run (sessionCallOf s) with
  | .error p => .error p
  | .ok (n, e) => .ok { s with Ingested := n, Err := e }

/-- The mutable scheduler state of `System`: the `current` session slot.
(The lock that guards it is modelled separately by `Step` below.) -/
structure SchedState where
  current : Option Session
  deriving DecidableEq

/-- Instrumentation for one `runOnce` execution: `finalSession` is the
stashed session object as left behind (Go callers hold a pointer to it),
`recovered` the panic caught by the deferred `recover`, `released` how many
times the deferred slot release ran, `validatedOn` the sequence the chain
validator was invoked on (if it was), `ran` whether `is.Run()` was reached. -/
structure RunReport where
  finalSession : Option Session
  recovered : Option Panic
  released : Nat
  validatedOn : Option Int
  ran : Bool
  deriving DecidableEq

def RunReport.noop : RunReport := ⟨none, none, 0, none, false⟩

/-- The two error shapes of `validateLedgerChain`: a wrapped lookup failure
for either header, or the fresh "cur and prev ledger hashes don't match". -/
inductive VErr where
  | lookupCur (e : Err)
  | lookupPrev (e : Err)
  | mismatch
  deriving DecidableEq

/-- `validateLedgerChain(seq)` (system.go lines 200-223): load the headers
of `seq` and `seq-1`, then compare hash linkage. -/
def validateLedgerChain (env : Env) (seq : Int) : Except VErr Unit :=
  match env.header seq with
  | .error e => .error (.lookupCur e)
  | .ok cur =>
    match env.header (seq - 1) with
    | .error e => .error (.lookupPrev e)
    | .ok prev =>
      if cur.PrevHash = prev.LedgerHash then .ok () else .error .mismatch

/-- `newTickSession` (system.go lines 116-131). -/
def newTickSession (env : Env) : Session :=
  let ls := env.lsTick
  let start := if ls.HistoryLatest = 0 then ls.CoreElder else ls.HistoryLatest + 1
  NewSession start ls.CoreLatest

/-- The tail of `runOnce` from `is.Run()` on: run the session with the
deferred slot release and the deferred `recover` both in force (`v` records
whether the validator had been invoked, for the report). -/
def runPhase (env : Env) (st : SchedState) (s : Session) (v : Option Int) :
    SchedState × RunReport :=
  match runSessionUpd env s with
  | .error p => ({ st with current := none }, ⟨some s, some p, 1, v, true⟩)
  | .ok s2 => ({ st with current := none }, ⟨some s2, none, 1, v, true⟩)

/-- `runOnce` (system.go lines 135-196).  The deferred `recover` is
installed first; the `ledger.CurrentState()` read happens BEFORE the
deferred slot release is installed, so a panic in that read is recovered
without the slot ever being cleared.  Every later path clears the slot
exactly once. -/
def runOnce (env : Env) (st : SchedState) : SchedState × RunReport :=
  match env.lsRun with
  | .error p => (st, ⟨none, some p, 0, none, false⟩)
  | .ok ls =>
    match st.current with
    | none => ({ st with current := none }, ⟨none, none, 1, none, false⟩)
    | some s =>
      if s.Cursor.FirstLedger > s.Cursor.LastLedger then
        ({ st with current := none }, ⟨some s, none, 1, none, false⟩)
      else
        if s.Cursor.FirstLedger ≠ ls.CoreElder then
          match validateLedgerChain env s.Cursor.FirstLedger with
          | .error _ =>
            ({ st with current := none },
             ⟨some s, none, 1, some s.Cursor.FirstLedger, false⟩)
          | .ok _ => runPhase env st s (some s.Cursor.FirstLedger)
        else runPhase env st s none

/-- `Tick` (system.go lines 98-112): check-and-install under the lock, then
`runOnce`; the returned session pointer is the installed one, whose fields
`runOnce` may have updated in place.  The `RunReport` component is
instrumentation. -/
def Tick (env : Env) (st : SchedState) : SchedState × Option Session × RunReport :=
  match st.current with
  | some _ => (st, none, RunReport.noop)
  | none =>
    let is := newTickSession env
    let st1 : SchedState := { st with current := some is }
    let (st2, rep) := runOnce env st1
    (st2, some (rep.finalSession.getD is), rep)

/-- `ReingestRange` (system.go lines 82-88): a fresh session over the range
switched into clear-existing mode, run synchronously; the result is the
call trace (always exactly this one call) plus the session's outcome, a
panic propagating to the caller. -/
def ReingestRange (env : Env) (start last : Int) :
    List SessionCall × Except Panic (Int × Option Err) :=
  let is : Session := { NewSession start last with ClearExisting := true }
  ([sessionCallOf is],
    match runSessionUpd env is with
    | .error p => .error p
    | .ok s2 => .ok (s2.Ingested, s2.Err))

/-- `ReingestRange` viewed as an operation on the scheduler state: its body
never references the `current` slot or the lock, so the state passes
through untouched. -/
def reingestRangeSched (env : Env) (st : SchedState) (start last : Int) :
    SchedState × (List SessionCall × Except Panic (Int × Option Err)) :=
  (st, ReingestRange env start last)

/-- `ReingestAll` (system.go lines 13-16). -/
def ReingestAll (env : Env) : List SessionCall × Except Panic (Int × Option Err) :=
  let ls := env.lsAll
  ReingestRange env ls.CoreElder ls.CoreLatest

/-- `ReingestSingle` (system.go lines 91-94). -/
def ReingestSingle (env : Env) (sequence : Int) :
    List SessionCall × Except Panic (Option Err) :=
  match ReingestRange env sequence sequence with
  | (cs, .error p) => (cs, .error p)
  | (cs, .ok (_, e)) => (cs, .ok e)

/-- The per-iteration scan of `ReingestOutdated` (system.go lines 40-77):
coalesce the `outdated` list into contiguous runs, flushing each completed
run through `ReingestRange`.  `s` and `e` are the open run's bounds (`0` is
the Go zero value of `var start, end int32`, doubling as the "no run open"
sentinel), `n` the accumulated ingested count; a flush error ends the
iteration with `(n, err)`, a flush panic propagates. -/
def coalesceFlush (env : Env) :
    List Int → Int → Int → Int → List SessionCall × Except Panic (Int × Option Err)
  | [], s, e, n =>
    match ReingestRange env s e with
    | (cs, .error p) => (cs, .error p)
    | (cs, .ok (_, some ferr)) => (cs, .ok (n, some ferr))
    | (cs, .ok (ing, none)) => (cs, .ok (n + ing, none))
  | seq :: rest, s, e, n =>
    if s = 0 then coalesceFlush env rest seq seq n
    else if seq = e + 1 then coalesceFlush env rest s seq n
    else
      match ReingestRange env s e with
      | (cs, .error p) => (cs, .error p)
      | (cs, .ok (_, some ferr)) => (cs, .ok (n, some ferr))
      | (cs, .ok (ing, none)) =>
        match coalesceFlush env rest seq seq (n + ing) with
        | (cs2, r) => (cs ++ cs2, r)

/-- Outcome of the outer drain loop: `done n err` means the Go function
returned `(n, err)`; `spinning n` means the supplied list of query
responses was exhausted while the loop would have kept iterating. -/
inductive OutdatedOutcome where
  | done (n : Int) (err : Option Err)
  | spinning (n : Int)
  deriving DecidableEq

/-- The outer loop of `ReingestOutdated` (system.go lines 24-78), driven by
the successive results of `q.OldestOutdatedLedgers` (one list entry per
query; the store mutates between queries, so the responses are an oracle). -/
def reingestLoop (env : Env) :
    List (Except Err (List Int)) → Int → List SessionCall × Except Panic OutdatedOutcome
  | [], n => ([], .ok (.spinning n))
  | q :: rest, n =>
    match q with
    | .error e => ([], .ok (.done n (some e)))
    | .ok [] => ([], .ok (.done n none))
    | .ok (x :: xs) =>
      match coalesceFlush env (x :: xs) 0 0 n with
      | (cs, .error p) => (cs, .error p)
      | (cs, .ok (m, some e)) => (cs, .ok (.done m (some e)))
      | (cs, .ok (m, none)) =>
        match reingestLoop env rest m with
        | (cs2, r) => (cs ++ cs2, r)

/-- `ReingestOutdated` (system.go lines 19-79). -/
def ReingestOutdated (env : Env) (queries : List (Except Err (List Int))) :
    List SessionCall × Except Panic OutdatedOutcome :=
  reingestLoop env queries 0

/-- Modelled from the spec: the RangeCoalescer algorithm exactly as §4.3
words it — "extend the run while the next value equals end+1; otherwise
flush the run and begin a new run; flush the final run unconditionally". -/
def specCoalesceGo : Int → Int → List Int → List (Int × Int)
  | s, e, [] => [(s, e)]
  | s, e, y :: ys =>
    if y = e + 1 then specCoalesceGo s y ys else (s, e) :: specCoalesceGo y y ys

/-- Modelled from the spec: RangeCoalescer on a whole input list. -/
def specCoalesce : List Int → List (Int × Int)
  | [] => []
  | x :: xs => specCoalesceGo x x xs

/-- The `ReingestRange` call a flushed run turns into. -/
def toCall (r : Int × Int) : SessionCall := ⟨r.1, r.2, true⟩

/-- Total ingested count of a list of calls whose runs report via `f`. -/
def callsSum (f : SessionCall → Int) (cs : List SessionCall) : Int :=
  (cs.map f).sum

/-- A sequence number is covered by one of the runs. -/
def covered (rs : List (Int × Int)) (x : Int) : Prop :=
  ∃ r ∈ rs, r.1 ≤ x ∧ x ≤ r.2

/-- Program counter of one thread executing `Tick` (system.go lines 98-112)
including the deferred slot release of `runOnce` (lines 151-159); the
`locked*` states hold `i.lock`. -/
inductive TPC where
  | idle
  | lockedCheck
  | lockedBusy
  | lockedInstall
  | lockedInstalled
  | running
  | lockedClear
  | lockedCleared
  | doneNil
  | doneRun
  deriving DecidableEq

def holdsLock : TPC → Bool
  | .lockedCheck | .lockedBusy | .lockedInstall | .lockedInstalled
  | .lockedClear | .lockedCleared => true
  | _ => false

/-- States in which the thread's session is installed in `current` (from
the `i.current = is` write until the deferred `i.current = nil`). -/
def occupying : TPC → Bool
  | .lockedInstalled | .running | .lockedClear => true
  | _ => false

/-- Shared state of the interleaving model: `i.lock` (its holder, if any),
`i.current` (tagged by the thread whose session occupies it), and every
thread's program counter. -/
structure MState (T : Type) where
  lock : Option T
  cur : Option T
  pc : T → TPC

/-- Interleaving semantics of concurrent `Tick` calls.  Acquisition steps
require `lock = none` (a mutex); the check step reads `cur` exactly as line
100 does; install and clear write `cur` while the lock is held. -/
inductive Step {T : Type} [DecidableEq T] : MState T → MState T → Prop where
  | acquire (s : MState T) (t : T) (hpc : s.pc t = .idle) (hl : s.lock = none) :
      Step s ⟨some t, s.cur, fun u => if u = t then .lockedCheck else s.pc u⟩
  | checkBusy (s : MState T) (t : T) (hpc : s.pc t = .lockedCheck) (hc : s.cur ≠ none) :
      Step s ⟨s.lock, s.cur, fun u => if u = t then .lockedBusy else s.pc u⟩
  | checkFree (s : MState T) (t : T) (hpc : s.pc t = .lockedCheck) (hc : s.cur = none) :
      Step s ⟨s.lock, s.cur, fun u => if u = t then .lockedInstall else s.pc u⟩
  | install (s : MState T) (t : T) (hpc : s.pc t = .lockedInstall) :
      Step s ⟨s.lock, some t, fun u => if u = t then .lockedInstalled else s.pc u⟩
  | unlockInstalled (s : MState T) (t : T) (hpc : s.pc t = .lockedInstalled) :
      Step s ⟨none, s.cur, fun u => if u = t then .running else s.pc u⟩
  | unlockBusy (s : MState T) (t : T) (hpc : s.pc t = .lockedBusy) :
      Step s ⟨none, s.cur, fun u => if u = t then .doneNil else s.pc u⟩
  | beginClear (s : MState T) (t : T) (hpc : s.pc t = .running) (hl : s.lock = none) :
      Step s ⟨some t, s.cur, fun u => if u = t then .lockedClear else s.pc u⟩
  | clear (s : MState T) (t : T) (hpc : s.pc t = .lockedClear) :
      Step s ⟨s.lock, none, fun u => if u = t then .lockedCleared else s.pc u⟩
  | unlockCleared (s : MState T) (t : T) (hpc : s.pc t = .lockedCleared) :
      Step s ⟨none, s.cur, fun u => if u = t then .doneRun else s.pc u⟩

def initMState (T : Type) : MState T := ⟨none, none, fun _ => .idle⟩

/-- Reachable states of the interleaving model, from the idle scheduler. -/
inductive Reach {T : Type} [DecidableEq T] : MState T → Prop where
  | init : Reach (initMState T)
  | step {s s' : MState T} : Reach s → Step s s' → Reach s'

/-- Inductive invariant of the lock protocol: lock-holding threads own the
lock, occupying threads own the slot, and a thread poised to install has
just observed the slot empty (and still holds the lock). -/
def LockInv {T : Type} (s : MState T) : Prop :=
  (∀ t, holdsLock (s.pc t) = true → s.lock = some t)
  ∧ (∀ t, occupying (s.pc t) = true → s.cur = some t)
  ∧ (∀ t, s.pc t = .lockedInstall → s.cur = none)

/-- One step of the lock protocol preserves `LockInv`. -/
theorem lockInv_step {T : Type} [DecidableEq T] {s s' : MState T}
    (h : LockInv s) (hs : Step s s') : LockInv s' := by
  obtain ⟨h1, h2, h3⟩ := h
  cases hs with
  | acquire t hpc hl =>
    refine ⟨fun u hu => ?_, fun u hu => ?_, fun u hu => ?_⟩
    · by_cases hut : u = t
      · simp only [hut]
      · simp only [if_neg hut] at hu
        have hx := h1 u hu
        simp only [hl] at hx
        exact Option.noConfusion hx
    · by_cases hut : u = t
      · simp only [if_pos hut] at hu
        exact absurd hu (by decide)
      · simp only [if_neg hut] at hu
        exact h2 u hu
    · by_cases hut : u = t
      · simp only [if_pos hut] at hu
        exact absurd hu (by decide)
      · simp only [if_neg hut] at hu
        exact h3 u hu
  | checkBusy t hpc hc =>
    refine ⟨fun u hu => ?_, fun u hu => ?_, fun u hu => ?_⟩
    · by_cases hut : u = t
      · simp only [hut]
        exact h1 t (by simp only [hpc]; rfl)
      · simp only [if_neg hut] at hu
        exact h1 u hu
    · by_cases hut : u = t
      · simp only [if_pos hut] at hu
        exact absurd hu (by decide)
      · simp only [if_neg hut] at hu
        exact h2 u hu
    · by_cases hut : u = t
      · simp only [if_pos hut] at hu
        exact absurd hu (by decide)
      · simp only [if_neg hut] at hu
        exact h3 u hu
  | checkFree t hpc hc =>
    refine ⟨fun u hu => ?_, fun u hu => ?_, fun u hu => ?_⟩
    · by_cases hut : u = t
      · simp only [hut]
        exact h1 t (by simp only [hpc]; rfl)
      · simp only [if_neg hut] at hu
        exact h1 u hu
    · by_cases hut : u = t
      · simp only [if_pos hut] at hu
        exact absurd hu (by decide)
      · simp only [if_neg hut] at hu
        exact h2 u hu
    · exact hc
  | install t hpc =>
    refine ⟨fun u hu => ?_, fun u hu => ?_, fun u hu => ?_⟩
    · by_cases hut : u = t
      · simp only [hut]
        exact h1 t (by simp only [hpc]; rfl)
      · simp only [if_neg hut] at hu
        exact h1 u hu
    · by_cases hut : u = t
      · simp only [hut]
      · simp only [if_neg hut] at hu
        have ha := h2 u hu
        simp only [h3 t hpc] at ha
        exact Option.noConfusion ha
    · by_cases hut : u = t
      · simp only [if_pos hut] at hu
        exact absurd hu (by decide)
      · simp only [if_neg hut] at hu
        have ea := h1 u (by simp only [hu]; rfl)
        have eb := h1 t (by simp only [hpc]; rfl)
        simp only [eb] at ea
        injection ea with e
        exact absurd e.symm hut
  | unlockInstalled t hpc =>
    refine ⟨fun u hu => ?_, fun u hu => ?_, fun u hu => ?_⟩
    · by_cases hut : u = t
      · simp only [if_pos hut] at hu
        exact absurd hu (by decide)
      · simp only [if_neg hut] at hu
        have ea := h1 u hu
        have eb := h1 t (by simp only [hpc]; rfl)
        simp only [eb] at ea
        injection ea with e
        exact absurd e.symm hut
    · by_cases hut : u = t
      · simp only [hut]
        exact h2 t (by simp only [hpc]; rfl)
      · simp only [if_neg hut] at hu
        exact h2 u hu
    · by_cases hut : u = t
      · simp only [if_pos hut] at hu
        exact absurd hu (by decide)
      · simp only [if_neg hut] at hu
        exact h3 u hu
  | unlockBusy t hpc =>
    refine ⟨fun u hu => ?_, fun u hu => ?_, fun u hu => ?_⟩
    · by_cases hut : u = t
      · simp only [if_pos hut] at hu
        exact absurd hu (by decide)
      · simp only [if_neg hut] at hu
        have ea := h1 u hu
        have eb := h1 t (by simp only [hpc]; rfl)
        simp only [eb] at ea
        injection ea with e
        exact absurd e.symm hut
    · by_cases hut : u = t
      · simp only [if_pos hut] at hu
        exact absurd hu (by decide)
      · simp only [if_neg hut] at hu
        exact h2 u hu
    · by_cases hut : u = t
      · simp only [if_pos hut] at hu
        exact absurd hu (by decide)
      · simp only [if_neg hut] at hu
        exact h3 u hu
  | beginClear t hpc hl =>
    refine ⟨fun u hu => ?_, fun u hu => ?_, fun u hu => ?_⟩
    · by_cases hut : u = t
      · simp only [hut]
      · simp only [if_neg hut] at hu
        have hx := h1 u hu
        simp only [hl] at hx
        exact Option.noConfusion hx
    · by_cases hut : u = t
      · simp only [hut]
        exact h2 t (by simp only [hpc]; rfl)
      · simp only [if_neg hut] at hu
        exact h2 u hu
    · by_cases hut : u = t
      · simp only [if_pos hut] at hu
        exact absurd hu (by decide)
      · simp only [if_neg hut] at hu
        exact h3 u hu
  | clear t hpc =>
    refine ⟨fun u hu => ?_, fun u hu => ?_, fun u hu => rfl⟩
    · by_cases hut : u = t
      · simp only [hut]
        exact h1 t (by simp only [hpc]; rfl)
      · simp only [if_neg hut] at hu
        exact h1 u hu
    · by_cases hut : u = t
      · simp only [if_pos hut] at hu
        exact absurd hu (by decide)
      · simp only [if_neg hut] at hu
        have ea := h2 u hu
        have eb := h2 t (by simp only [hpc]; rfl)
        simp only [eb] at ea
        injection ea with e
        exact absurd e.symm hut
  | unlockCleared t hpc =>
    refine ⟨fun u hu => ?_, fun u hu => ?_, fun u hu => ?_⟩
    · by_cases hut : u = t
      · simp only [if_pos hut] at hu
        exact absurd hu (by decide)
      · simp only [if_neg hut] at hu
        have ea := h1 u hu
        have eb := h1 t (by simp only [hpc]; rfl)
        simp only [eb] at ea
        injection ea with e
        exact absurd e.symm hut
    · by_cases hut : u = t
      · simp only [if_pos hut] at hu
        exact absurd hu (by decide)
      · simp only [if_neg hut] at hu
        exact h2 u hu
    · by_cases hut : u = t
      · simp only [if_pos hut] at hu
        exact absurd hu (by decide)
      · simp only [if_neg hut] at hu
        exact h3 u hu

/-- Every reachable state of the lock protocol satisfies `LockInv`. -/
theorem reach_lockInv {T : Type} [DecidableEq T] {m : MState T}
    (h : Reach m) : LockInv m := by
  induction h with
  | init =>
    exact ⟨fun t ht => Bool.noConfusion ht, fun t ht => Bool.noConfusion ht,
      fun t ht => TPC.noConfusion ht⟩
  | step _ hs ih => exact lockInv_step ih hs

/-- Mutual exclusion: in any reachable state at most one thread's session
occupies the `current` slot. -/
theorem reach_mutex {T : Type} [DecidableEq T] {m : MState T} (h : Reach m)
    (t u : T) (ht : occupying (m.pc t) = true) (hu : occupying (m.pc u) = true) :
    t = u := by
  obtain ⟨-, h2, -⟩ := reach_lockInv h
  have et := h2 t ht
  have eu := h2 u hu
  rw [et] at eu
  exact Option.some.inj eu

/-- `ReingestRange` always issues exactly one run call, over its own range
in clear-existing mode. -/
theorem reingestRange_calls (env : Env) (s e : Int) :
    (ReingestRange env s e).1 = [⟨s, e, true⟩] := rfl

/-- When every run succeeds with outcome `f`, `ReingestRange` returns the
run's ingested count and no error. -/
theorem reingestRange_run (env : Env) (f : SessionCall → Int)
    (Hrun : ∀ c, env.run c = .ok (f c, none)) (s e : Int) :
    ReingestRange env s e = ([⟨s, e, true⟩], .ok (f ⟨s, e, true⟩, none)) := by
  simp [ReingestRange, runSessionUpd, Hrun, sessionCallOf, NewSession]

/-- When every run succeeds, one scan of the coalescing loop succeeds and
accumulates exactly the ingested counts of the calls it flushed. -/
theorem coalesceFlush_ok (env : Env) (f : SessionCall → Int)
    (Hrun : ∀ c, env.run c = .ok (f c, none)) :
    ∀ (xs : List Int) (s e n : Int), ∃ cs,
      coalesceFlush env xs s e n = (cs, .ok (n + callsSum f cs, none)) := by
  intro xs
  induction xs with
  | nil =>
    intro s e n
    refine ⟨[⟨s, e, true⟩], ?_⟩
    simp [coalesceFlush, reingestRange_run env f Hrun, callsSum]
  | cons y ys ih =>
    intro s e n
    by_cases hs0 : s = 0
    · obtain ⟨cs, hcs⟩ := ih y y n
      exact ⟨cs, by simp [coalesceFlush, hs0, hcs]⟩
    · by_cases hye : y = e + 1
      · subst hye
        obtain ⟨cs, hcs⟩ := ih s (e + 1) n
        exact ⟨cs, by simp [coalesceFlush, hs0, hcs]⟩
      · obtain ⟨cs, hcs⟩ := ih y y (n + f ⟨s, e, true⟩)
        refine ⟨⟨s, e, true⟩ :: cs, ?_⟩
        simp [coalesceFlush, hs0, hye, reingestRange_run env f Hrun, hcs, callsSum]
        omega

/-- When every run succeeds and the open run's start is a genuine sequence
number (nonzero, as every element is), the scan's call trace is exactly the
spec-side coalescer's runs. -/
theorem coalesceFlush_trace (env : Env) (f : SessionCall → Int)
    (Hrun : ∀ c, env.run c = .ok (f c, none)) :
    ∀ (xs : List Int) (s e n : Int), s ≠ 0 → (∀ y ∈ xs, 1 ≤ y) →
      (coalesceFlush env xs s e n).1 = (specCoalesceGo s e xs).map toCall := by
  intro xs
  induction xs with
  | nil =>
    intro s e n _ _
    simp [coalesceFlush, specCoalesceGo, reingestRange_run env f Hrun, toCall]
  | cons y ys ih =>
    intro s e n hs hpos
    have hy1 : 1 ≤ y := hpos y (List.mem_cons_self y ys)
    have hys : ∀ z ∈ ys, 1 ≤ z := fun z hz => hpos z (List.mem_cons_of_mem y hz)
    by_cases hye : y = e + 1
    · subst hye
      simpa [coalesceFlush, hs, specCoalesceGo] using ih s (e + 1) n hs hys
    · have hy0 : y ≠ 0 := by omega
      simpa [coalesceFlush, hs, hye, specCoalesceGo,
        reingestRange_run env f Hrun, toCall] using ih y y (n + f ⟨s, e, true⟩) hy0 hys

theorem covered_cons (r : Int × Int) (rs : List (Int × Int)) (x : Int) :
    covered (r :: rs) x ↔ (r.1 ≤ x ∧ x ≤ r.2) ∨ covered rs x := by
  simp [covered]

/-- The spec-side coalescer's runs cover exactly the input set (for a
strictly ascending input chained above the open run). -/
theorem specCoalesceGo_covered :
    ∀ (xs : List Int) (s e : Int), s ≤ e → List.Chain (· < ·) e xs →
      ∀ x, covered (specCoalesceGo s e xs) x ↔ (s ≤ x ∧ x ≤ e) ∨ x ∈ xs := by
  intro xs
  induction xs with
  | nil =>
    intro s e _ _ x
    simp [specCoalesceGo, covered]
  | cons y ys ih =>
    intro s e hse hch x
    cases hch with
    | cons hey hch =>
      by_cases hye : y = e + 1
      · subst hye
        rw [show specCoalesceGo s e ((e + 1) :: ys) = specCoalesceGo s (e + 1) ys from by
          simp [specCoalesceGo]]
        rw [ih s (e + 1) (by omega) hch x]
        simp only [List.mem_cons]
        constructor
        · rintro (h | hP)
          · by_cases hxe : x ≤ e
            · exact Or.inl ⟨h.1, hxe⟩
            · exact Or.inr (Or.inl (by omega))
          · exact Or.inr (Or.inr hP)
        · rintro (h | h | hP)
          · exact Or.inl ⟨h.1, by omega⟩
          · exact Or.inl (by omega)
          · exact Or.inr hP
      · rw [show specCoalesceGo s e (y :: ys) = (s, e) :: specCoalesceGo y y ys from by
          simp [specCoalesceGo, hye]]
        rw [covered_cons, ih y y le_rfl hch x]
        simp only [List.mem_cons]
        constructor
        · rintro (h | h | hP)
          · exact Or.inl h
          · exact Or.inr (Or.inl (by omega))
          · exact Or.inr (Or.inr hP)
        · rintro (h | h | hP)
          · exact Or.inl h
          · exact Or.inr (Or.inl (by omega))
          · exact Or.inr (Or.inr hP)

/-- The spec-side coalescer's first run starts at the open run's start. -/
theorem specCoalesceGo_head :
    ∀ (xs : List Int) (s e : Int), ∃ w rest, specCoalesceGo s e xs = (s, w) :: rest := by
  intro xs
  induction xs with
  | nil => intro s e; exact ⟨e, [], rfl⟩
  | cons y ys ih =>
    intro s e
    by_cases hye : y = e + 1
    · subst hye
      obtain ⟨w, rest, h⟩ := ih s (e + 1)
      exact ⟨w, rest, by simp [specCoalesceGo, h]⟩
    · exact ⟨e, specCoalesceGo y y ys, by simp [specCoalesceGo, hye]⟩

/-- The spec-side coalescer's runs are nonempty and separated by genuine
gaps (consecutive runs are not mergeable), hence minimal in number. -/
theorem specCoalesceGo_runs :
    ∀ (xs : List Int) (s e : Int), s ≤ e → List.Chain (· < ·) e xs →
      (∀ r ∈ specCoalesceGo s e xs, r.1 ≤ r.2) ∧
      List.Chain' (fun a b : Int × Int => a.2 + 1 < b.1) (specCoalesceGo s e xs) := by
  intro xs
  induction xs with
  | nil =>
    intro s e hse _
    constructor
    · intro r hr
      have hre : r = (s, e) := by simpa [specCoalesceGo] using hr
      rw [hre]
      exact hse
    · simp [specCoalesceGo]
  | cons y ys ih =>
    intro s e hse hch
    cases hch with
    | cons hey hch =>
      by_cases hye : y = e + 1
      · subst hye
        have := ih s (e + 1) (by omega) hch
        rw [show specCoalesceGo s e ((e + 1) :: ys) = specCoalesceGo s (e + 1) ys from by
          simp [specCoalesceGo]]
        exact this
      · obtain ⟨hb, hc⟩ := ih y y le_rfl hch
        rw [show specCoalesceGo s e (y :: ys) = (s, e) :: specCoalesceGo y y ys from by
          simp [specCoalesceGo, hye]]
        constructor
        · intro r hr
          rcases List.mem_cons.mp hr with h | h
          · rw [h]; exact hse
          · exact hb r h
        · obtain ⟨w, rest, hh⟩ := specCoalesceGo_head ys y y
          rw [hh]
          rw [hh] at hc
          exact List.Chain'.cons (by simp; omega) hc

/-- Entering the scan: the Go zero values `start = end = 0` make the first
element open the first run. -/
theorem coalesceFlush_entry (env : Env) (x : Int) (xs : List Int) (n : Int) :
    coalesceFlush env (x :: xs) 0 0 n = coalesceFlush env xs x x n := by
  simp [coalesceFlush]

/-- When every run succeeds, the outer drain loop flushes each nonempty
query response and stops at the first empty one, returning the accumulated
ingested count and no error. -/
theorem reingestLoop_drains (env : Env) (f : SessionCall → Int)
    (Hrun : ∀ c, env.run c = .ok (f c, none)) :
    ∀ (qs : List (Except Err (List Int))) (n : Int),
      (∀ q ∈ qs, ∃ x xs, q = Except.ok (x :: xs)) →
      ∃ cs, reingestLoop env (qs ++ [Except.ok []]) n =
        (cs, .ok (.done (n + callsSum f cs) none)) := by
  intro qs
  induction qs with
  | nil =>
    intro n _
    exact ⟨[], by simp [reingestLoop, callsSum]⟩
  | cons q rest ih =>
    intro n hq
    obtain ⟨x, xs, hx⟩ := hq q (List.mem_cons_self q rest)
    subst hx
    obtain ⟨cs1, h1⟩ := coalesceFlush_ok env f Hrun (x :: xs) 0 0 n
    obtain ⟨cs2, h2⟩ := ih (n + callsSum f cs1) (fun p hp => hq p (List.mem_cons_of_mem _ hp))
    refine ⟨cs1 ++ cs2, ?_⟩
    have hsum : callsSum f (cs1 ++ cs2) = callsSum f cs1 + callsSum f cs2 := by
      simp [callsSum]
    simp only [reingestLoop, List.append_eq, h1, h2, hsum]
    rw [add_assoc]

/-- `runPhase` always clears the slot once, reports the run, and returns
the session updated by the run when it did not panic. -/
theorem runPhase_spec (env : Env) (st : SchedState) (s : Session) (v : Option Int) :
    (runPhase env st s v).1.current = none ∧ (runPhase env st s v).2.released = 1 ∧
    (runPhase env st s v).2.validatedOn = v ∧ (runPhase env st s v).2.ran = true := by
  unfold runPhase
  cases runSessionUpd env s <;> simp

/-- A panic in `runOnce`'s ledger-state read is recovered, but the slot is
left exactly as it was (the deferred release was not yet installed). -/
theorem runOnce_readPanic (env : Env) (st : SchedState) (p : Panic)
    (h : env.lsRun = .error p) :
    runOnce env st = (st, ⟨none, some p, 0, none, false⟩) := by
  unfold runOnce
  rw [h]

/-- `runOnce` over an empty computed range: no validation, no run, slot
released, session untouched. -/
theorem runOnce_emptyRange (env : Env) (st : SchedState) (s : Session)
    (ls : LedgerState) (hcur : st.current = some s) (hls : env.lsRun = .ok ls)
    (hgt : s.Cursor.FirstLedger > s.Cursor.LastLedger) :
    runOnce env st = ({ st with current := none }, ⟨some s, none, 1, none, false⟩) := by
  unfold runOnce
  rw [hls, hcur]
  dsimp only
  rw [if_pos hgt]

/-- `runOnce` when validation is due and fails: no run, slot released,
session untouched, validator reported. -/
theorem runOnce_valFail (env : Env) (st : SchedState) (s : Session)
    (ls : LedgerState) (er : VErr) (hcur : st.current = some s)
    (hls : env.lsRun = .ok ls) (hle : s.Cursor.FirstLedger ≤ s.Cursor.LastLedger)
    (hne : s.Cursor.FirstLedger ≠ ls.CoreElder)
    (hv : validateLedgerChain env s.Cursor.FirstLedger = .error er) :
    runOnce env st =
      ({ st with current := none },
       ⟨some s, none, 1, some s.Cursor.FirstLedger, false⟩) := by
  unfold runOnce
  rw [hls, hcur]
  dsimp only
  rw [if_neg (by omega), if_pos hne, hv]

/-- `runOnce` when validation is due and passes: the session runs. -/
theorem runOnce_valOk (env : Env) (st : SchedState) (s : Session)
    (ls : LedgerState) (hcur : st.current = some s) (hls : env.lsRun = .ok ls)
    (hle : s.Cursor.FirstLedger ≤ s.Cursor.LastLedger)
    (hne : s.Cursor.FirstLedger ≠ ls.CoreElder)
    (hv : validateLedgerChain env s.Cursor.FirstLedger = .ok ()) :
    runOnce env st = runPhase env st s (some s.Cursor.FirstLedger) := by
  unfold runOnce
  rw [hls, hcur]
  dsimp only
  rw [if_neg (by omega), if_pos hne, hv]

/-- `runOnce` from the very first ledger (`start = CoreElder`): validation
is skipped and the session runs. -/
theorem runOnce_elder (env : Env) (st : SchedState) (s : Session)
    (ls : LedgerState) (hcur : st.current = some s) (hls : env.lsRun = .ok ls)
    (hle : s.Cursor.FirstLedger ≤ s.Cursor.LastLedger)
    (heq : s.Cursor.FirstLedger = ls.CoreElder) :
    runOnce env st = runPhase env st s none := by
  unfold runOnce
  rw [hls, hcur]
  dsimp only
  rw [if_neg (by omega), if_neg (by simp [heq])]

/-- When the slot is free, `Tick` installs `newTickSession` and hands
everything to `runOnce`. -/
theorem tick_free (env : Env) (st : SchedState) (h : st.current = none) :
    Tick env st =
      ((runOnce env { st with current := some (newTickSession env) }).1,
       some ((runOnce env
          { st with current := some (newTickSession env) }).2.finalSession.getD
          (newTickSession env)),
       (runOnce env { st with current := some (newTickSession env) }).2) := by
  rcases st with ⟨_ | s⟩
  · rcases hr : runOnce env ⟨some (newTickSession env)⟩ with ⟨st2, rep⟩
    simp [Tick, hr]
  · exact absurd h (by simp)

/-- After a successful state read `runOnce` always empties the slot and
runs the deferred release exactly once, on every path. -/
theorem runOnce_ok_spec (env : Env) (st : SchedState) (ls : LedgerState)
    (hls : env.lsRun = .ok ls) :
    (runOnce env st).1.current = none ∧ (runOnce env st).2.released = 1 := by
  unfold runOnce
  rw [hls]
  dsimp only
  cases hc : st.current with
  | none => simp
  | some s =>
    dsimp only
    split
    · simp
    · split
      · split
        · simp
        · exact ⟨(runPhase_spec env st s _).1, (runPhase_spec env st s _).2.1⟩
      · exact ⟨(runPhase_spec env st s _).1, (runPhase_spec env st s _).2.1⟩

/-- If the session run panicked and `runOnce` reached it, the panic was
recovered and reported. -/
theorem runOnce_ok_panicReport (env : Env) (st : SchedState) (ls : LedgerState)
    (s : Session) (hls : env.lsRun = .ok ls) (hcur : st.current = some s)
    (p : Panic) (hp : env.run (sessionCallOf s) = .error p) :
    (runOnce env st).2.ran = true → (runOnce env st).2.recovered = some p := by
  have hph : ∀ v, (runPhase env st s v).2.recovered = some p := by
    intro v
    unfold runPhase runSessionUpd
    rw [hp]
  unfold runOnce
  rw [hls, hcur]
  dsimp only
  split
  · intro h
    simp at h
  · split
    · split
      · intro h
        simp at h
      · intro _
        exact hph _
    · intro _
      exact hph _

/-- Whatever branch `runOnce` takes, the session object it leaves behind
keeps the cursor and mode of the installed session (runs only update
`Ingested` and `Err`). -/
theorem runOnce_final_cursor (env : Env) (st : SchedState) (s : Session)
    (hcur : st.current = some s) :
    ∀ s2, (runOnce env st).2.finalSession = some s2 →
      s2.Cursor = s.Cursor ∧ s2.ClearExisting = s.ClearExisting := by
  have hph : ∀ v s2, (runPhase env st s v).2.finalSession = some s2 →
      s2.Cursor = s.Cursor ∧ s2.ClearExisting = s.ClearExisting := by
    intro v s2 h
    unfold runPhase runSessionUpd at h
    rcases hr : env.run (sessionCallOf s) with p | nv
    · rw [hr] at h
      simp at h
      rw [← h]
      exact ⟨rfl, rfl⟩
    · rcases nv with ⟨n, e⟩
      rw [hr] at h
      simp at h
      rw [← h]
      exact ⟨rfl, rfl⟩
  unfold runOnce
  cases hls : env.lsRun with
  | error p =>
    intro s2 h
    simp at h
  | ok ls =>
    rw [hcur]
    dsimp only
    split
    · intro s2 h
      simp at h
      rw [← h]
      exact ⟨rfl, rfl⟩
    · split
      · split
        · intro s2 h
          simp at h
          rw [← h]
          exact ⟨rfl, rfl⟩
        · exact hph _
      · exact hph _

/-- The final unconditional flush on an exhausted scan issues exactly the
open run. -/
theorem coalesceFlush_nil_calls (env : Env) (s e n : Int) :
    (coalesceFlush env [] s e n).1 = [⟨s, e, true⟩] := by
  rcases hr : ReingestRange env s e with ⟨cs, r⟩
  have hcs : cs = [⟨s, e, true⟩] := by
    have h := reingestRange_calls env s e
    rw [hr] at h
    exact h
  subst hcs
  cases r with
  | error p => simp [coalesceFlush, hr]
  | ok v =>
    rcases v with ⟨ing, er⟩
    cases er with
    | none => simp [coalesceFlush, hr]
    | some ferr => simp [coalesceFlush, hr]

/-- A baseline environment: one-ledger core, empty history, every run
ingests nothing, no headers stored. -/
def envA : Env :=
  { run := fun _ => .ok (0, none)
    lsAll := ⟨1, 1, 0⟩
    lsTick := ⟨1, 1, 0⟩
    lsRun := .ok ⟨1, 1, 0⟩
    header := fun _ => .error ⟨"not found"⟩ }

/-- Environment whose runs each ingest one ledger. -/
def envC : Env :=
  { run := fun _ => .ok (1, none)
    lsAll := ⟨1, 10, 0⟩
    lsTick := ⟨1, 10, 0⟩
    lsRun := .ok ⟨1, 10, 0⟩
    header := fun _ => .error ⟨"not found"⟩ }

/-- Environment whose `runOnce` ledger-state read panics. -/
def envD : Env := { envA with lsRun := .error ⟨"boom"⟩ }

/-- Caught-up environment: history has everything core has. -/
def envE : Env := { envA with lsTick := ⟨1, 100, 100⟩, lsRun := .ok ⟨1, 100, 100⟩ }

/-- Mid-history environment whose header store is empty, so chain
validation fails with a lookup error. -/
def envF : Env := { envA with lsTick := ⟨1, 9, 4⟩, lsRun := .ok ⟨1, 9, 4⟩ }

/-- Environment with a linked pair of headers at 9-10, a broken link at
11-12, and nothing else. -/
def envH : Env :=
  { envA with
    header := fun q =>
      if q = 10 then .ok ⟨10, "a", "b"⟩
      else if q = 9 then .ok ⟨9, "b", "c"⟩
      else if q = 12 then .ok ⟨12, "x", "z"⟩
      else if q = 11 then .ok ⟨11, "y", "w"⟩
      else .error ⟨"nf"⟩ }

/-- Environment where history is ahead of core, so the tick's computed
range is empty. -/
def envG : Env := { envA with lsTick := ⟨1, 10, 20⟩, lsRun := .ok ⟨1, 10, 20⟩ }

/-- C1: if the `current` slot is non-empty, `Tick` returns the "already in
progress" no-op result — a nil session — installing nothing and leaving the
scheduler state unchanged; and because the check and the installation of
`current` happen inside one lock-guarded critical section, in every
interleaving of concurrent `Tick` calls no two sessions ever occupy the
`current` slot at overlapping times. -/
theorem tick_single_flight :
    (∀ (env : Env) (st : SchedState) (s : Session), st.current = some s →
      Tick env st = (st, none, RunReport.noop))
    ∧ (∀ (T : Type) [DecidableEq T] (m : MState T), Reach m →
      ∀ t u : T, occupying (m.pc t) = true → occupying (m.pc u) = true → t = u) := by
  constructor
  · intro env st s h
    unfold Tick
    rw [h]
  · intro T _ m hm t u ht hu
    exact reach_mutex hm t u ht hu

/-- C1 witness: a busy scheduler no-ops, and in a concretely reached state
of the two-thread lock protocol where thread `true` runs its installed
session, mutual exclusion applies. -/
theorem tick_single_flight_witness :
    Tick envA { current := some (NewSession 1 1) } =
      ({ current := some (NewSession 1 1) }, none, RunReport.noop) ∧ (true = true) := by
  constructor
  · exact tick_single_flight.1 envA { current := some (NewSession 1 1) } (NewSession 1 1) rfl
  · have h0 : Reach (initMState Bool) := Reach.init
    have h1 := Reach.step h0 (Step.acquire (initMState Bool) true rfl rfl)
    have h2 := Reach.step h1 (Step.checkFree _ true rfl rfl)
    have h3 := Reach.step h2 (Step.install _ true rfl)
    have h4 := Reach.step h3 (Step.unlockInstalled _ true rfl)
    exact tick_single_flight.2 Bool _ h4 true true rfl rfl

/-- C2 counterexample: when the ledger-state read at the top of `runOnce`
panics, `Tick` has installed a session (and returns it), the panic is
recovered, yet the `current` slot is still occupied after `Tick` returns
and the release never ran — refuting "after Tick returns the `current` slot
is empty again: the slot is released exactly once ... on panic". -/
theorem tick_stateread_panic_leaks_slot :
    (Tick envD { current := none }).2.1 = some (newTickSession envD)
    ∧ (Tick envD { current := none }).1.current = some (newTickSession envD)
    ∧ (Tick envD { current := none }).2.2.recovered = some ⟨"boom"⟩
    ∧ (Tick envD { current := none }).2.2.released = 0 := by
  refine ⟨rfl, rfl, rfl, rfl⟩

/-- C2 (amended): every execution of `Tick` that installs a session returns
normally.  When the `runOnce` ledger-state read succeeds, every outcome —
normal return, session error, or a panic inside `Session.Run` — leaves the
`current` slot empty, released exactly once via the deferred cleanup, and a
run panic is recovered and reported rather than propagated.  However, a
panic raised by the ledger-state read itself is recovered BEFORE the
cleanup is registered: `Tick` still returns normally with the panic
reported, but the slot stays occupied and the release count is zero. -/
theorem tick_cleanup_containment :
    (∀ (env : Env) (st : SchedState) (ls : LedgerState), st.current = none →
      env.lsRun = .ok ls →
      (Tick env st).1.current = none ∧ (Tick env st).2.2.released = 1 ∧
      (∀ p, (Tick env st).2.2.ran = true →
        env.run (sessionCallOf (newTickSession env)) = .error p →
        (Tick env st).2.2.recovered = some p))
    ∧ (∀ (env : Env) (st : SchedState) (p : Panic), st.current = none →
      env.lsRun = .error p →
      (Tick env st).1.current = some (newTickSession env) ∧
      (Tick env st).2.2.recovered = some p ∧ (Tick env st).2.2.released = 0) := by
  constructor
  · intro env st ls h hls
    have ht := tick_free env st h
    refine ⟨?_, ?_, ?_⟩
    · rw [ht]
      exact (runOnce_ok_spec env _ ls hls).1
    · rw [ht]
      exact (runOnce_ok_spec env _ ls hls).2
    · intro p hran hp
      rw [ht] at hran ⊢
      exact runOnce_ok_panicReport env _ ls (newTickSession env) hls rfl p hp hran
  · intro env st p h hls
    rw [tick_free env st h, runOnce_readPanic env _ p hls]
    exact ⟨rfl, rfl, rfl⟩

/-- C2 witness: a clean tick empties the slot with one release; the
state-read-panic tick reports the panic without any release. -/
theorem tick_cleanup_containment_witness :
    ((Tick envA { current := none }).1.current = none ∧
      (Tick envA { current := none }).2.2.released = 1)
    ∧ ((Tick envD { current := none }).2.2.recovered = some ⟨"boom"⟩ ∧
      (Tick envD { current := none }).2.2.released = 0) := by
  constructor
  · have h := tick_cleanup_containment.1 envA { current := none } ⟨1, 1, 0⟩ rfl rfl
    exact ⟨h.1, h.2.1⟩
  · have h := tick_cleanup_containment.2 envD { current := none } ⟨"boom"⟩ rfl rfl
    exact ⟨h.2.1, h.2.2⟩

/-- C3: the session built by `newTickSession` and installed by a free-slot
`Tick` starts at `CoreElder` when `HistoryLatest` is zero, at
`HistoryLatest + 1` when `HistoryLatest` is positive, ends at `CoreLatest`,
and is created with clear-existing = false (and the session `Tick` actually
returns carries exactly that cursor and mode). -/
theorem newTickSession_range :
    ∀ env : Env,
      (env.lsTick.HistoryLatest = 0 →
        (newTickSession env).Cursor.FirstLedger = env.lsTick.CoreElder)
      ∧ (0 < env.lsTick.HistoryLatest →
        (newTickSession env).Cursor.FirstLedger = env.lsTick.HistoryLatest + 1)
      ∧ (newTickSession env).Cursor.LastLedger = env.lsTick.CoreLatest
      ∧ (newTickSession env).ClearExisting = false
      ∧ (∀ st : SchedState, st.current = none → ∃ s2,
          (Tick env st).2.1 = some s2 ∧ s2.Cursor = (newTickSession env).Cursor ∧
          s2.ClearExisting = false) := by
  intro env
  refine ⟨?_, ?_, rfl, rfl, ?_⟩
  · intro h
    simp [newTickSession, NewSession, h]
  · intro h
    simp [newTickSession, NewSession, show ¬env.lsTick.HistoryLatest = 0 by omega]
  · intro st h
    rw [tick_free env st h]
    cases hfs : (runOnce env { st with current := some (newTickSession env) }).2.finalSession with
    | none => exact ⟨newTickSession env, by simp [hfs], rfl, rfl⟩
    | some s2 =>
      have hc := runOnce_final_cursor env _ (newTickSession env) rfl s2 hfs
      exact ⟨s2, by simp [hfs], hc.1, hc.2.trans rfl⟩

/-- C3 witness: with empty history the start is the core elder; with
history at 100 the start is 101. -/
theorem newTickSession_range_witness :
    (newTickSession envA).Cursor.FirstLedger = 1 ∧
    (newTickSession envE).Cursor.FirstLedger = 101 := by
  constructor
  · exact (newTickSession_range envA).1 rfl
  · rw [(newTickSession_range envE).2.1 (by decide)]
    decide

/-- C4: for every ascending, deduplicated list of outdated sequence numbers
(genuine ledger sequences, hence ≥ 1), a single drain iteration whose runs
all succeed issues `ReingestRange` calls on exactly the minimal ordered
list of maximal contiguous runs whose union equals the input set: the trace
equals the spec-side coalescer's runs, those runs cover exactly the input
elements, each run is nonempty, and consecutive runs are separated by a
genuine gap (so none can be merged — the list is minimal and each run
maximal). -/
theorem reingest_coalescing_minimal_runs :
    ∀ (env : Env) (f : SessionCall → Int),
      (∀ c, env.run c = .ok (f c, none)) →
      ∀ (l : List Int) (n : Int), l ≠ [] → List.Chain' (· < ·) l →
        (∀ x ∈ l, 1 ≤ x) →
        (coalesceFlush env l 0 0 n).1 = (specCoalesce l).map toCall
        ∧ (∀ x, covered (specCoalesce l) x ↔ x ∈ l)
        ∧ (∀ r ∈ specCoalesce l, r.1 ≤ r.2)
        ∧ List.Chain' (fun a b : Int × Int => a.2 + 1 < b.1) (specCoalesce l) := by
  intro env f Hrun l n hne hasc hpos
  cases l with
  | nil => exact absurd rfl hne
  | cons x xs =>
    have hx1 : 1 ≤ x := hpos x (List.mem_cons_self x xs)
    have hxs : ∀ z ∈ xs, 1 ≤ z := fun z hz => hpos z (List.mem_cons_of_mem x hz)
    have hch : List.Chain (· < ·) x xs := hasc
    refine ⟨?_, ?_, ?_, ?_⟩
    · rw [coalesceFlush_entry]
      exact coalesceFlush_trace env f Hrun xs x x n (by omega) hxs
    · intro z
      rw [show specCoalesce (x :: xs) = specCoalesceGo x x xs from rfl,
        specCoalesceGo_covered xs x x le_rfl hch z]
      simp only [List.mem_cons]
      constructor
      · rintro (⟨h1, h2⟩ | h)
        · exact Or.inl (by omega)
        · exact Or.inr h
      · rintro (h | h)
        · exact Or.inl (by omega)
        · exact Or.inr h
    · exact (specCoalesceGo_runs xs x x le_rfl hch).1
    · exact (specCoalesceGo_runs xs x x le_rfl hch).2

/-- C4 witness: the spec's example `{5,6,7,10,11,15}` yields exactly the
calls `(5,7), (10,11), (15,15)` in that order. -/
theorem reingest_coalescing_minimal_runs_witness :
    (coalesceFlush envC [5, 6, 7, 10, 11, 15] 0 0 0).1 =
      [⟨5, 7, true⟩, ⟨10, 11, true⟩, ⟨15, 15, true⟩] := by
  rw [(reingest_coalescing_minimal_runs envC (fun _ => 1) (fun c => rfl)
    [5, 6, 7, 10, 11, 15] 0 (by decide) (by simp [List.chain'_cons]) (by decide)).1]
  decide

/-- C5: `validateLedgerChain seq` returns a (wrapped) lookup error when the
header of `seq` or of `seq-1` is absent; when both are present it succeeds
exactly when `header(seq).PrevHash = header(seq-1).LedgerHash`, and returns
the distinct chain-discontinuity error on mismatch. -/
theorem validateLedgerChain_spec :
    ∀ (env : Env) (seq : Int),
      (∀ e, env.header seq = .error e →
        validateLedgerChain env seq = .error (.lookupCur e))
      ∧ (∀ cur e, env.header seq = .ok cur → env.header (seq - 1) = .error e →
        validateLedgerChain env seq = .error (.lookupPrev e))
      ∧ (∀ cur prev, env.header seq = .ok cur → env.header (seq - 1) = .ok prev →
        ((validateLedgerChain env seq = .ok () ↔ cur.PrevHash = prev.LedgerHash)
        ∧ (cur.PrevHash ≠ prev.LedgerHash →
            validateLedgerChain env seq = .error .mismatch))) := by
  intro env seq
  refine ⟨?_, ?_, ?_⟩
  · intro e h
    simp [validateLedgerChain, h]
  · intro cur e h1 h2
    simp [validateLedgerChain, h1, h2]
  · intro cur prev h1 h2
    constructor
    · constructor
      · intro hv
        by_contra hne
        simp [validateLedgerChain, h1, h2, hne] at hv
      · intro he
        simp [validateLedgerChain, h1, h2, he]
    · intro hne
      simp [validateLedgerChain, h1, h2, hne]

/-- C5 witness: linked headers at 10/9 validate; the broken link at 12/11
yields the mismatch error; the missing header at 20 yields a lookup error. -/
theorem validateLedgerChain_spec_witness :
    validateLedgerChain envH 10 = .ok () ∧
    validateLedgerChain envH 12 = .error .mismatch ∧
    validateLedgerChain envH 20 = .error (.lookupCur ⟨"nf"⟩) := by
  refine ⟨?_, ?_, ?_⟩
  · exact ((validateLedgerChain_spec envH 10).2.2 ⟨10, "a", "b"⟩ ⟨9, "b", "c"⟩
      rfl rfl).1.mpr rfl
  · exact ((validateLedgerChain_spec envH 12).2.2 ⟨12, "x", "z"⟩ ⟨11, "y", "w"⟩
      rfl rfl).2 (by decide)
  · exact (validateLedgerChain_spec envH 20).1 ⟨"nf"⟩ rfl

/-- C6 counterexample: with CoreElder 1, CoreLatest 100, HistoryLatest 100
the tick's session starts at 101 ≠ CoreElder, yet the empty computed range
(101 > 100) makes the run return before the validator, which is therefore
NOT invoked — refuting "the ChainValidator is invoked ... exactly when
start differs from CoreElder". -/
theorem chain_validation_skipped_on_empty_range :
    (newTickSession envE).Cursor.FirstLedger = 101 ∧
    envE.lsRun = .ok ⟨1, 100, 100⟩ ∧
    (Tick envE { current := none }).2.2.validatedOn = none ∧
    (Tick envE { current := none }).2.2.ran = false := by
  refine ⟨by decide, rfl, rfl, rfl⟩

/-- C6 (amended): during a tick's run with a successful state read and a
NON-EMPTY computed range, the chain validator is invoked on the session's
start sequence exactly when it differs from `CoreElder`; when validation
fails the session is never executed, nothing is raised to the caller (no
panic escapes, the session object is returned untouched), and the slot is
still released, so the next tick retries.  (When the computed range is
empty the run returns before validation even if start differs from
`CoreElder` — the exception the original claim omitted.) -/
theorem chain_validation_gating :
    ∀ (env : Env) (st : SchedState) (s : Session) (ls : LedgerState),
      st.current = some s → env.lsRun = .ok ls →
      s.Cursor.FirstLedger ≤ s.Cursor.LastLedger →
      (((runOnce env st).2.validatedOn = some s.Cursor.FirstLedger) ↔
        s.Cursor.FirstLedger ≠ ls.CoreElder)
      ∧ (∀ er, s.Cursor.FirstLedger ≠ ls.CoreElder →
          validateLedgerChain env s.Cursor.FirstLedger = .error er →
          (runOnce env st).2.ran = false ∧
          (runOnce env st).2.finalSession = some s ∧
          (runOnce env st).2.recovered = none ∧
          (runOnce env st).1.current = none) := by
  intro env st s ls hcur hls hle
  constructor
  · by_cases hne : s.Cursor.FirstLedger ≠ ls.CoreElder
    · cases hv : validateLedgerChain env s.Cursor.FirstLedger with
      | error er =>
        rw [runOnce_valFail env st s ls er hcur hls hle hne hv]
        simp [hne]
      | ok u =>
        cases u
        rw [runOnce_valOk env st s ls hcur hls hle hne hv,
          (runPhase_spec env st s (some s.Cursor.FirstLedger)).2.2.1]
        simp [hne]
    · have heq := not_not.mp hne
      rw [runOnce_elder env st s ls hcur hls hle heq,
        (runPhase_spec env st s none).2.2.1]
      simp [heq]
  · intro er hne hv
    rw [runOnce_valFail env st s ls er hcur hls hle hne hv]
    exact ⟨rfl, rfl, rfl, rfl⟩

/-- C6 witness: in a mid-history state with an empty header store the
validator fails with a lookup error, the session is not run and the slot is
released. -/
theorem chain_validation_gating_witness :
    (runOnce envF { current := some (newTickSession envF) }).2.ran = false ∧
    (runOnce envF { current := some (newTickSession envF) }).1.current = none := by
  have h := (chain_validation_gating envF { current := some (newTickSession envF) }
    (newTickSession envF) ⟨1, 9, 4⟩ rfl rfl (by decide)).2
    (.lookupCur ⟨"not found"⟩) (by decide) rfl
  exact ⟨h.1, h.2.2.2⟩

/-- C7: `ReingestOutdated` repeats the query-coalesce-flush cycle until the
outdated query returns an empty list, then terminates with the accumulated
ingested count and no error; in particular with responses `{3,4,5}` then
`{}` it makes exactly one `ReingestRange(3,5)` call and terminates. -/
theorem reingestOutdated_drains_until_empty :
    ∀ (env : Env) (f : SessionCall → Int),
      (∀ c, env.run c = .ok (f c, none)) →
      (∀ qs : List (Except Err (List Int)),
        (∀ q ∈ qs, ∃ x xs, q = Except.ok (x :: xs)) →
        ∃ cs, ReingestOutdated env (qs ++ [Except.ok []]) =
          (cs, .ok (.done (callsSum f cs) none)))
      ∧ ReingestOutdated env [Except.ok [3, 4, 5], Except.ok []] =
          ([⟨3, 5, true⟩], .ok (.done (f ⟨3, 5, true⟩) none)) := by
  intro env f Hrun
  constructor
  · intro qs hq
    obtain ⟨cs, h⟩ := reingestLoop_drains env f Hrun qs 0 hq
    exact ⟨cs, by simpa [ReingestOutdated] using h⟩
  · have h1 : coalesceFlush env ([3, 4, 5] : List Int) 0 0 0 =
        ([⟨3, 5, true⟩], .ok (f ⟨3, 5, true⟩, none)) := by
      rw [coalesceFlush_entry]
      norm_num [coalesceFlush, reingestRange_run env f Hrun]
    simp [ReingestOutdated, reingestLoop, h1]

/-- C7 witness: the concrete drain `{3,4,5}` then `{}` with unit-ingest
runs produces exactly one call and terminates with count 1. -/
theorem reingestOutdated_drains_until_empty_witness :
    ReingestOutdated envC [Except.ok [3, 4, 5], Except.ok []] =
      ([⟨3, 5, true⟩], .ok (.done 1 none)) := by
  exact (reingestOutdated_drains_until_empty envC (fun _ => 1) (fun c => rfl)).2

/-- C8: `ReingestAll` is exactly `ReingestRange(CoreElder, CoreLatest)` on
the current ledger state; `ReingestSingle seq` is exactly the error
component of `ReingestRange(seq, seq)`; and every `ReingestRange(s, e)`
runs exactly one session over `[s, e]` with clear-existing = true,
returning that session's `(Ingested, Err)`, without reading or writing the
scheduler's `current` slot. -/
theorem reingest_delegation :
    ∀ (env : Env) (s e q : Int) (st : SchedState),
      ReingestAll env = ReingestRange env env.lsAll.CoreElder env.lsAll.CoreLatest
      ∧ ReingestSingle env q =
          ((ReingestRange env q q).1, (ReingestRange env q q).2.map Prod.snd)
      ∧ (ReingestRange env s e).1 = [⟨s, e, true⟩]
      ∧ (∀ n er, env.run ⟨s, e, true⟩ = .ok (n, er) →
          (ReingestRange env s e).2 = .ok (n, er))
      ∧ reingestRangeSched env st s e = (st, ReingestRange env s e) := by
  intro env s e q st
  refine ⟨rfl, ?_, rfl, ?_, rfl⟩
  · unfold ReingestSingle
    rcases hr : ReingestRange env q q with ⟨cs, r⟩
    cases r with
    | error p => simp [Except.map]
    | ok v =>
      rcases v with ⟨n, er⟩
      simp [Except.map]
  · intro n er h
    simp [ReingestRange, runSessionUpd, sessionCallOf, NewSession, h]

/-- C8 witness: with unit-ingest runs, `ReingestRange 2 4` returns the
run's outcome. -/
theorem reingest_delegation_witness :
    (ReingestRange envC 2 4).2 = .ok (1, none) :=
  (reingest_delegation envC 2 4 0 { current := none }).2.2.2.1 1 none rfl

/-- C9 counterexample: for the input list `[0]`, whose first element is the
sequence number 0, the final unconditional flush issues
`ReingestRange(0, 0)` — whose range contains 0 — refuting "0 is never
included in any ReingestRange call". -/
theorem zero_head_singleton_is_flushed :
    (ReingestOutdated envC [Except.ok [0]]).1 = [⟨0, 0, true⟩] := rfl

/-- C9 (amended): the scan uses `start == 0` (the Go zero value of
`var start, end int32`) as its "no run open" sentinel, so coalescing is
faithful only when every outdated sequence number is at least 1.  A
leading 0 is consumed by the sentinel branch leaving the open run's bounds
at `(0, 0)`, i.e. the iteration proceeds exactly as if the 0 were absent;
hence when at least one further (genuine, ≥ 1) element follows, 0 appears
in no issued range — but for the singleton input `[0]` the final
unconditional flush issues `ReingestRange(0, 0)`. -/
theorem zero_start_sentinel :
    (∀ (env : Env) (rest : List Int) (n : Int),
      coalesceFlush env (0 :: rest) 0 0 n = coalesceFlush env rest 0 0 n)
    ∧ (∀ (env : Env) (f : SessionCall → Int), (∀ c, env.run c = .ok (f c, none)) →
      ∀ (y : Int) (ys : List Int) (n : Int), List.Chain' (· < ·) (y :: ys) →
        (∀ x ∈ y :: ys, 1 ≤ x) →
        ∀ c ∈ (coalesceFlush env (0 :: y :: ys) 0 0 n).1,
          ¬(c.first ≤ 0 ∧ 0 ≤ c.last))
    ∧ (∀ (env : Env) (n : Int),
      (coalesceFlush env [0] 0 0 n).1 = [⟨0, 0, true⟩]) := by
  refine ⟨?_, ?_, ?_⟩
  · intro env rest n
    simp [coalesceFlush]
  · intro env f Hrun y ys n hasc hpos c hc hrange
    rw [show coalesceFlush env (0 :: y :: ys) 0 0 n = coalesceFlush env (y :: ys) 0 0 n from by
      simp [coalesceFlush]] at hc
    have h1 : 1 ≤ y := hpos y (List.mem_cons_self y ys)
    have hch : List.Chain (· < ·) y ys := hasc
    rw [coalesceFlush_entry, coalesceFlush_trace env f Hrun ys y y n (by omega)
      (fun z hz => hpos z (List.mem_cons_of_mem y hz))] at hc
    obtain ⟨r, hr, hcall⟩ := List.mem_map.mp hc
    rw [← hcall] at hrange
    have hcov : covered (specCoalesceGo y y ys) 0 := ⟨r, hr, hrange.1, hrange.2⟩
    rcases (specCoalesceGo_covered ys y y le_rfl hch 0).mp hcov with ⟨h2, _⟩ | h0
    · omega
    · have := hpos 0 (List.mem_cons_of_mem y h0)
      omega
  · intro env n
    rw [show coalesceFlush env [0] 0 0 n = coalesceFlush env [] 0 0 n from by
      simp [coalesceFlush]]
    exact coalesceFlush_nil_calls env 0 0 n

/-- C9 witness: a leading 0 before a genuine element is skipped — the scan
of `[0, 5]` equals the scan of `[5]` and its single call `(5,5)` does not
cover 0 — while the singleton `[0]` flushes `(0,0)`. -/
theorem zero_start_sentinel_witness :
    coalesceFlush envC [0, 5] 0 0 0 = coalesceFlush envC [5] 0 0 0
    ∧ ¬((⟨5, 5, true⟩ : SessionCall).first ≤ 0 ∧
        (0 : Int) ≤ (⟨5, 5, true⟩ : SessionCall).last)
    ∧ (coalesceFlush envC [0] 0 0 0).1 = [⟨0, 0, true⟩] := by
  refine ⟨zero_start_sentinel.1 envC [5] 0, ?_, zero_start_sentinel.2.2 envC 0⟩
  exact zero_start_sentinel.2.1 envC (fun _ => 1) (fun c => rfl) 5 [] 0
    (by simp) (by decide) ⟨5, 5, true⟩ (by decide)

/-- C10: whenever `Tick` finds the slot empty it returns a non-nil session
pointer, even when the run ingested nothing — because the computed range
was empty or because chain validation failed before `Session.Run`; in those
skipped cases the returned session is the freshly built one with
`Err = nil` and `Ingested = 0`, exactly what a successful empty run also
returns, so the return value alone cannot distinguish the two. -/
theorem tick_skipped_run_indistinguishable :
    ∀ (env : Env) (st : SchedState) (ls : LedgerState), st.current = none →
      env.lsRun = .ok ls →
      (∃ s2, (Tick env st).2.1 = some s2)
      ∧ ((newTickSession env).Cursor.FirstLedger > (newTickSession env).Cursor.LastLedger →
          (Tick env st).2.1 = some (newTickSession env) ∧
          (newTickSession env).Ingested = 0 ∧ (newTickSession env).Err = none ∧
          (Tick env st).2.2.ran = false)
      ∧ (∀ er, (newTickSession env).Cursor.FirstLedger ≤ (newTickSession env).Cursor.LastLedger →
          (newTickSession env).Cursor.FirstLedger ≠ ls.CoreElder →
          validateLedgerChain env (newTickSession env).Cursor.FirstLedger = .error er →
          (Tick env st).2.1 = some (newTickSession env) ∧ (Tick env st).2.2.ran = false)
      ∧ (env.run (sessionCallOf (newTickSession env)) = .ok (0, none) →
          (newTickSession env).Cursor.FirstLedger ≤ (newTickSession env).Cursor.LastLedger →
          (newTickSession env).Cursor.FirstLedger = ls.CoreElder →
          (Tick env st).2.1 = some (newTickSession env) ∧ (Tick env st).2.2.ran = true) := by
  intro env st ls h hls
  have ht := tick_free env st h
  have hcur : ({ st with current := some (newTickSession env) } : SchedState).current =
      some (newTickSession env) := rfl
  refine ⟨⟨_, by rw [ht]⟩, ?_, ?_, ?_⟩
  · intro hgt
    rw [ht, runOnce_emptyRange env _ (newTickSession env) ls hcur hls hgt]
    exact ⟨rfl, rfl, rfl, rfl⟩
  · intro er hle hne hv
    rw [ht, runOnce_valFail env _ (newTickSession env) ls er hcur hls hle hne hv]
    exact ⟨rfl, rfl⟩
  · intro hrun hle heq
    rw [ht, runOnce_elder env _ (newTickSession env) ls hcur hls hle heq]
    have heta : ({ newTickSession env with Ingested := 0, Err := none } : Session) =
        newTickSession env := rfl
    unfold runPhase runSessionUpd
    rw [hrun]
    simp [heta]

/-- C10 witness: with history ahead of core the computed range `[21, 10]`
is empty, yet `Tick` returns the installed session, unrun, with zero count
and nil error. -/
theorem tick_skipped_run_indistinguishable_witness :
    (Tick envG { current := none }).2.1 = some (newTickSession envG) ∧
    (Tick envG { current := none }).2.2.ran = false := by
  have h := (tick_skipped_run_indistinguishable envG { current := none }
    ⟨1, 10, 20⟩ rfl rfl).2.1 (by decide)
  exact ⟨h.1, h.2.2.2⟩

end Horizon
